import Mathlib

/-!
Verification of the SSE streaming response decoder of the NimbleBrain
TypeScript SDK.

The SDK contains two implementations of the server-sent-event decoder:

* `MessagesAPI.stream` (the primary one, exercised by the test suite):
  accumulates a text buffer, splits it on the blank-line delimiter
  `"\n\n"`, parses each complete frame into an `event:` type and the
  newline-join of its `data:` lines, JSON-parses the data with a
  raw-text fallback, and stops as soon as a frame with a data
  payload carries the event type `done`;

* `NimbleBrain.streamMessage` (the secondary one): splits the buffer on
  single newlines, keeps the current event type in a variable that
  persists across frames, and emits an event for every `data: ` line
  whose payload JSON-parses while an event type is set.

Text is modelled as `List Char`; byte streams as `List Nat`; the
platform JSON parser is an arbitrary function `List Char → Option α`
(a frame payload either parses to a structured value or fails).
-/

namespace SSE

/-- DataVal is the payload carried by a decoded event: either the result of a
successful structured (JSON) parse, or the raw fallback text used by the
primary decoder when parsing fails. -/
inductive DataVal (α : Type) where
  | parsed (a : α)
  | raw (text : List Char)
deriving DecidableEq, Repr

/-- Event mirrors the `StreamEvent` interface: a type label plus a data
payload. -/
structure Event (α : Type) where
  type : List Char
  data : DataVal α
deriving DecidableEq, Repr

/-- breakDelim scans a text for the first occurrence of the frame delimiter
(two consecutive newline characters) and, when found, returns the text
before the delimiter together with the text after it.  This mirrors the
leftmost-match behaviour of one step of the JavaScript split of the
buffer on the two-newline delimiter. -/
def breakDelim : List Char → Option (List Char × List Char)
  | [] => none
  | [_] => none
  | c1 :: c2 :: rest =>
    if c1 = '\n' ∧ c2 = '\n' then some ([], rest)
    else (breakDelim (c2 :: rest)).map (fun p => (c1 :: p.1, p.2))

theorem breakDelim_cons₂ (c1 c2 : Char) (rest : List Char) :
    breakDelim (c1 :: c2 :: rest) =
      if c1 = '\n' ∧ c2 = '\n' then some ([], rest)
      else (breakDelim (c2 :: rest)).map (fun p => (c1 :: p.1, p.2)) := rfl

/-- A successful breakDelim decomposes the input around a delimiter. -/
theorem breakDelim_eq_some {s f r : List Char} (h : breakDelim s = some (f, r)) :
    s = f ++ '\n' :: '\n' :: r := by
  induction s generalizing f r with
  | nil => simp [breakDelim] at h
  | cons c1 t ih =>
    match t with
    | [] => simp [breakDelim] at h
    | c2 :: rest =>
      rw [breakDelim_cons₂] at h
      split at h
      · rename_i hnl
        obtain ⟨h1, h2⟩ := hnl
        injection h with h
        injection h with hf hr
        subst hf; subst hr; subst h1; subst h2; rfl
      · rcases hb : breakDelim (c2 :: rest) with _ | ⟨f', r'⟩
        · rw [hb] at h; simp at h
        · rw [hb] at h
          simp only [Option.map_some'] at h
          injection h with h
          injection h with hf hr
          subst hr
          have := ih hb
          rw [← hf]
          exact congrArg (c1 :: ·) this

theorem breakDelim_some_length {s f r : List Char} (h : breakDelim s = some (f, r)) :
    r.length < s.length := by
  have := breakDelim_eq_some h
  subst this
  simp
  omega

/-- splitFramesGo is the fuel-indexed worker for splitFrames; the fuel only
serves to make the recursion structural, every call supplies enough of it. -/
def splitFramesGo : Nat → List Char → List (List Char) × List Char
  | 0, s => ([], s)
  | fuel + 1, s =>
    match breakDelim s with
    | none => ([], s)
    | some (f, rest) =>
      ((splitFramesGo fuel rest).1.cons f, (splitFramesGo fuel rest).2)

/-- splitFrames repeatedly extracts complete frames from the front of a text,
returning the list of complete frames together with the trailing remainder
that contains no delimiter.  This is the pure content of the JavaScript
split of the buffer on the two-newline delimiter followed by the pop of
the last piece back into the buffer. -/
def splitFrames (s : List Char) : List (List Char) × List Char :=
  splitFramesGo s.length s

theorem splitFramesGo_fuel : ∀ (n m : Nat) (s : List Char),
    s.length ≤ n → s.length ≤ m → splitFramesGo n s = splitFramesGo m s := by
  intro n
  induction n with
  | zero =>
    intro m s hn _
    have : s = [] := by
      cases s
      · rfl
      · simp at hn
    subst this
    cases m <;> rfl
  | succ k ih =>
    intro m s hn hm
    cases m with
    | zero =>
      have : s = [] := by
        cases s
        · rfl
        · simp at hm
      subst this
      rfl
    | succ k' =>
      show (match breakDelim s with
        | none => ([], s)
        | some (f, rest) =>
          ((splitFramesGo k rest).1.cons f, (splitFramesGo k rest).2)) =
        (match breakDelim s with
        | none => ([], s)
        | some (f, rest) =>
          ((splitFramesGo k' rest).1.cons f, (splitFramesGo k' rest).2))
      rcases hb : breakDelim s with _ | ⟨f, rest⟩
      · rfl
      · have hlen := breakDelim_some_length hb
        have h1 : rest.length ≤ k := by omega
        have h2 : rest.length ≤ k' := by omega
        simp only [ih k' rest h1 h2]

theorem splitFrames_none {s : List Char} (h : breakDelim s = none) :
    splitFrames s = ([], s) := by
  cases s with
  | nil => rfl
  | cons c t =>
    show (match breakDelim (c :: t) with
      | none => ([], c :: t)
      | some (f, rest) =>
        ((splitFramesGo t.length rest).1.cons f, (splitFramesGo t.length rest).2)) =
      ([], c :: t)
    rw [h]

theorem splitFrames_some {s f rest : List Char} (h : breakDelim s = some (f, rest)) :
    splitFrames s = (f :: (splitFrames rest).1, (splitFrames rest).2) := by
  have hlen := breakDelim_some_length h
  cases s with
  | nil => cases h
  | cons c t =>
    show (match breakDelim (c :: t) with
      | none => ([], c :: t)
      | some (f, rest) =>
        ((splitFramesGo t.length rest).1.cons f, (splitFramesGo t.length rest).2)) =
      (f :: (splitFrames rest).1, (splitFrames rest).2)
    rw [h]
    have : splitFramesGo t.length rest = splitFrames rest := by
      apply splitFramesGo_fuel
      · simp at hlen; omega
      · exact Nat.le_refl _
    show (f :: (splitFramesGo t.length rest).1, (splitFramesGo t.length rest).2) =
      (f :: (splitFrames rest).1, (splitFrames rest).2)
    rw [this]

/-- If a text contains a delimiter, so does the same text extended on the
right, with the same frame in front of it. -/
theorem breakDelim_append_some {a : List Char} {f r : List Char}
    (h : breakDelim a = some (f, r)) (b : List Char) :
    breakDelim (a ++ b) = some (f, r ++ b) := by
  induction a generalizing f with
  | nil => cases h
  | cons c1 t ih =>
    match t with
    | [] => cases h
    | c2 :: rest =>
      rw [breakDelim_cons₂] at h
      show breakDelim (c1 :: c2 :: (rest ++ b)) = some (f, r ++ b)
      rw [breakDelim_cons₂]
      split at h
      · rename_i hnl
        injection h with h
        injection h with h1 h2
        subst h1; subst h2
        rw [if_pos hnl]
      · rename_i hnl
        rw [if_neg hnl]
        rcases hb : breakDelim (c2 :: rest) with _ | ⟨f', r'⟩
        · rw [hb] at h; cases h
        · rw [hb] at h
          simp only [Option.map_some'] at h
          injection h with h
          injection h with h1 h2
          subst h1; subst h2
          have := ih hb
          rw [show c2 :: (rest ++ b) = (c2 :: rest) ++ b from rfl, this]
          rfl

/-- The remainder left by splitFrames contains no frame delimiter. -/
theorem splitFrames_no_delim (s : List Char) :
    breakDelim (splitFrames s).2 = none := by
  suffices h : ∀ (n : Nat) (s : List Char), s.length ≤ n →
      breakDelim (splitFrames s).2 = none from h s.length s (Nat.le_refl _)
  intro n
  induction n with
  | zero =>
    intro s hs
    have : s = [] := List.length_eq_zero.mp (Nat.le_zero.mp hs)
    subst this; rfl
  | succ k ih =>
    intro s hs
    rcases hb : breakDelim s with _ | ⟨f, rest⟩
    · rw [splitFrames_none hb]
      exact hb
    · rw [splitFrames_some hb]
      have := breakDelim_some_length hb
      exact ih rest (by omega)

/-- joinFrames reassembles complete frames, each followed by the blank-line
delimiter that terminated it in the incoming text. -/
def joinFrames : List (List Char) → List Char
  | [] => []
  | f :: fs => f ++ '\n' :: '\n' :: joinFrames fs

/-- Any text is the reassembly of its complete frames followed by the
buffered remainder. -/
theorem joinFrames_splitFrames (s : List Char) :
    joinFrames (splitFrames s).1 ++ (splitFrames s).2 = s := by
  suffices h : ∀ (n : Nat) (s : List Char), s.length ≤ n →
      joinFrames (splitFrames s).1 ++ (splitFrames s).2 = s from
    h s.length s (Nat.le_refl _)
  intro n
  induction n with
  | zero =>
    intro s hs
    have : s = [] := List.length_eq_zero.mp (Nat.le_zero.mp hs)
    subst this; rfl
  | succ k ih =>
    intro s hs
    rcases hb : breakDelim s with _ | ⟨f, rest⟩
    · rw [splitFrames_none hb]
      rfl
    · rw [splitFrames_some hb]
      have hlen := breakDelim_some_length hb
      have hrec := ih rest (by omega)
      show (f ++ '\n' :: '\n' :: joinFrames (splitFrames rest).1) ++
        (splitFrames rest).2 = s
      rw [breakDelim_eq_some hb]
      simp only [List.append_assoc, List.cons_append]
      rw [hrec]

/-- Splitting a text that arrives in two pieces extracts the same frames as
splitting the whole: the frames of the first piece, then the frames found
once the buffered remainder of the first piece is prepended to the second. -/
theorem splitFrames_append (a b : List Char) :
    splitFrames (a ++ b) =
      ((splitFrames a).1 ++ (splitFrames ((splitFrames a).2 ++ b)).1,
       (splitFrames ((splitFrames a).2 ++ b)).2) := by
  suffices h : ∀ (n : Nat) (a : List Char), a.length ≤ n → ∀ b : List Char,
      splitFrames (a ++ b) =
        ((splitFrames a).1 ++ (splitFrames ((splitFrames a).2 ++ b)).1,
         (splitFrames ((splitFrames a).2 ++ b)).2) from
    h a.length a (Nat.le_refl _) b
  intro n
  induction n with
  | zero =>
    intro a ha b
    have : a = [] := List.length_eq_zero.mp (Nat.le_zero.mp ha)
    subst this
    rfl
  | succ k ih =>
    intro a ha b
    rcases hb : breakDelim a with _ | ⟨f, rest⟩
    · rw [splitFrames_none hb]
      rfl
    · have hlen := breakDelim_some_length hb
      rw [splitFrames_some hb, splitFrames_some (breakDelim_append_some hb b),
        ih rest (by omega) b]
      rfl

/-- splitLines splits a text on single newline characters, mirroring the
JavaScript `chunk.split('\n')` (an empty text yields one empty line). -/
def splitLines : List Char → List (List Char)
  | [] => [[]]
  | '\n' :: rest => [] :: splitLines rest
  | c :: rest =>
    match splitLines rest with
    | [] => [[c]]
    | l :: ls => (c :: l) :: ls

/-- jsWs decides membership in the JavaScript regular-expression whitespace
class, used by the line.replace calls that strip the field labels together
with the whitespace run that follows them. -/
def jsWs (c : Char) : Bool :=
  c.toNat = 9 || c.toNat = 10 || c.toNat = 11 || c.toNat = 12 || c.toNat = 13 ||
  c.toNat = 32 || c.toNat = 160 || c.toNat = 5760 ||
  (8192 ≤ c.toNat && c.toNat ≤ 8202) ||
  c.toNat = 8232 || c.toNat = 8233 || c.toNat = 8239 || c.toNat = 8287 ||
  c.toNat = 12288 || c.toNat = 65279

/-- stripTag removes an `n`-character field label from the front of a line
and then any run of whitespace, mirroring the anchored line.replace of the
label once the label has been checked with startsWith. -/
def stripTag (n : Nat) (line : List Char) : List Char :=
  (line.drop n).dropWhile jsWs

/-- FrameFields is the transient per-frame parse state of
`MessagesAPI.stream`: the `eventType` variable (absent until an `event:`
line is seen) and the ordered list of `data:` line payloads. -/
structure FrameFields where
  eventType : Option (List Char)
  dataLines : List (List Char)
deriving DecidableEq, Repr

/-- parseLine processes one line of a frame exactly as the `for (const line
of lines)` body of `MessagesAPI.stream`: an `event:` label overwrites the
event type, a `data:` label appends to the data lines, anything else is
ignored. -/
def parseLine (st : FrameFields) (line : List Char) : FrameFields :=
  if ("event:".toList).isPrefixOf line then
    { st with eventType := some (stripTag 6 line) }
  else if ("data:".toList).isPrefixOf line then
    { st with dataLines := st.dataLines ++ [stripTag 5 line] }
  else st

/-- parseFrameLines folds parseLine over the lines of a frame starting from
the empty state. -/
def parseFrameLines (lines : List (List Char)) : FrameFields :=
  lines.foldl parseLine { eventType := none, dataLines := [] }

/-- parseFrame splits one delimited frame into lines and parses its fields. -/
def parseFrame (frame : List Char) : FrameFields :=
  parseFrameLines (splitLines frame)

/-- typeOf computes the emitted event type from the parsed fields,
mirroring the or-else default applied to eventType: an unset or empty
(falsy) event type falls back to `content`. -/
def typeOf (ff : FrameFields) : List Char :=
  match ff.eventType with
  | some t => if t = [] then "content".toList else t
  | none => "content".toList

/-- frameEvent turns one complete frame into at most one event, mirroring
the `if (dataLines.length > 0)` block of `MessagesAPI.stream`: a frame
without data lines yields nothing; otherwise the data lines are joined
with newlines and parsed (with the raw-text fallback), and the flag
records whether the raw event type was exactly `done`, which makes the
generator return. -/
def frameEvent {α : Type} (jp : List Char → Option α) (frame : List Char) :
    Option (Event α × Bool) :=
  let ff := parseFrame frame
  if ff.dataLines = [] then none
  else
    let rawData := List.intercalate ['\n'] ff.dataLines
    let data : DataVal α :=
      match jp rawData with
      | some a => DataVal.parsed a
      | none => DataVal.raw rawData
    some (⟨typeOf ff, data⟩, ff.eventType == some ("done".toList))

/-- emitFrames emits events for a list of complete frames in order,
stopping early (second component `true`) as soon as a frame with a data
payload carries the `done` event type. -/
def emitFrames {α : Type} (jp : List Char → Option α) :
    List (List Char) → List (Event α) × Bool
  | [] => ([], false)
  | f :: fs =>
    match frameEvent jp f with
    | none => emitFrames jp fs
    | some (ev, isDone) =>
      if isDone then ([ev], true)
      else ((emitFrames jp fs).1.cons ev, (emitFrames jp fs).2)

theorem emitFrames_nil {α : Type} (jp : List Char → Option α) :
    emitFrames jp [] = ([], false) := rfl

theorem emitFrames_cons {α : Type} (jp : List Char → Option α)
    (f : List Char) (fs : List (List Char)) :
    emitFrames jp (f :: fs) =
      match frameEvent jp f with
      | none => emitFrames jp fs
      | some (ev, isDone) =>
        if isDone then ([ev], true)
        else ((emitFrames jp fs).1.cons ev, (emitFrames jp fs).2) := rfl

/-- Emitting an appended list of frames: if the first part halts on a
terminal frame its output stands alone, otherwise the outputs concatenate. -/
theorem emitFrames_append {α : Type} (jp : List Char → Option α)
    (fs1 fs2 : List (List Char)) :
    emitFrames jp (fs1 ++ fs2) =
      if (emitFrames jp fs1).2 then emitFrames jp fs1
      else ((emitFrames jp fs1).1 ++ (emitFrames jp fs2).1,
        (emitFrames jp fs2).2) := by
  induction fs1 with
  | nil =>
    simp [emitFrames]
  | cons f fs ih =>
    rw [List.cons_append, emitFrames_cons, emitFrames_cons]
    rcases hfe : frameEvent jp f with _ | ⟨ev, isDone⟩
    · exact ih
    · cases isDone with
      | true => simp
      | false =>
        simp only [Bool.false_eq_true, if_false, ih]
        cases he : (emitFrames jp fs).2 with
        | true => simp [he]
        | false => simp [he]

namespace MessagesAPI

/-- streamDecode is the reference (one-shot) decode: the events emitted by
`MessagesAPI.stream` when the entire stream text is delivered as a single
chunk. -/
def streamDecode {α : Type} (jp : List Char → Option α) (text : List Char) :
    List (Event α) :=
  (emitFrames jp (splitFrames text).1).1

/-- streamDecodeChunksAux is the decode loop of `MessagesAPI.stream` over
text chunks: each arriving chunk is appended to the buffer, the buffer is
split on the blank-line delimiter keeping the trailing remainder, and the
complete frames are emitted; when a data-carrying `done` frame is seen the
generator returns and later chunks are never read. -/
def streamDecodeChunksAux {α : Type} (jp : List Char → Option α)
    (buf : List Char) : List (List Char) → List (Event α)
  | [] => []
  | c :: cs =>
    let p := splitFrames (buf ++ c)
    let e := emitFrames jp p.1
    if e.2 then e.1
    else e.1 ++ streamDecodeChunksAux jp p.2 cs

/-- streamDecodeChunks runs the decode loop from the initial empty buffer. -/
def streamDecodeChunks {α : Type} (jp : List Char → Option α)
    (chunks : List (List Char)) : List (Event α) :=
  streamDecodeChunksAux jp [] chunks

/-- The decode loop started on a delimiter-free buffer emits exactly the
events of the one-shot decode of the buffered text followed by all
remaining chunks. -/
theorem streamDecodeChunksAux_eq {α : Type} (jp : List Char → Option α) :
    ∀ (tcs : List (List Char)) (buf : List Char), breakDelim buf = none →
      streamDecodeChunksAux jp buf tcs =
        (emitFrames jp (splitFrames (buf ++ tcs.flatten)).1).1 := by
  intro tcs
  induction tcs with
  | nil =>
    intro buf hbuf
    show [] = (emitFrames jp (splitFrames (buf ++ [])).1).1
    rw [List.append_nil, splitFrames_none hbuf]
    rfl
  | cons c cs ih =>
    intro buf hbuf
    show (if (emitFrames jp (splitFrames (buf ++ c)).1).2 then
        (emitFrames jp (splitFrames (buf ++ c)).1).1
      else (emitFrames jp (splitFrames (buf ++ c)).1).1 ++
        streamDecodeChunksAux jp (splitFrames (buf ++ c)).2 cs) = _
    rw [ih (splitFrames (buf ++ c)).2 (splitFrames_no_delim _)]
    have hassoc : buf ++ (c :: cs).flatten = (buf ++ c) ++ cs.flatten := by
      simp [List.flatten_cons, List.append_assoc]
    rw [hassoc, splitFrames_append (buf ++ c) cs.flatten,
      emitFrames_append]
    cases he : (emitFrames jp (splitFrames (buf ++ c)).1).2 with
    | true => simp [he]
    | false => simp [he]

/-- Chunk-boundary invariance at the text level: the decode loop over any
sequence of text chunks emits the same events as the one-shot decode of
their concatenation. -/
theorem streamDecodeChunks_eq_streamDecode {α : Type}
    (jp : List Char → Option α) (tcs : List (List Char)) :
    streamDecodeChunks jp tcs = streamDecode jp tcs.flatten := by
  unfold streamDecodeChunks streamDecode
  rw [streamDecodeChunksAux_eq jp tcs [] rfl]
  rfl

end MessagesAPI

/-- utf8Len is the total length (in bytes) of the UTF-8 sequence announced
by a lead byte; malformed lead bytes count as single-byte sequences. -/
def utf8Len (b : Nat) : Nat :=
  if b < 128 then 1
  else if b < 192 then 1
  else if b < 224 then 2
  else if b < 240 then 3
  else if b < 248 then 4
  else 1

theorem utf8Len_pos (b : Nat) : 1 ≤ utf8Len b := by
  unfold utf8Len
  split_ifs <;> omega

/-- utf8DecChar decodes one complete UTF-8 byte sequence into a character by
combining the payload bits of the lead and continuation bytes. -/
def utf8DecChar : List Nat → Char
  | [b] => Char.ofNat b
  | [b1, b2] => Char.ofNat (b1 % 32 * 64 + b2 % 64)
  | [b1, b2, b3] => Char.ofNat (b1 % 16 * 4096 + b2 % 64 * 64 + b3 % 64)
  | [b1, b2, b3, b4] =>
    Char.ofNat (b1 % 8 * 262144 + b2 % 64 * 4096 + b3 % 64 * 64 + b4 % 64)
  | _ => Char.ofNat 65533

/-- utf8GreedyGo is the fuel-indexed worker for utf8Greedy. -/
def utf8GreedyGo : Nat → List Nat → List Char × List Nat
  | 0, bs => ([], bs)
  | _ + 1, [] => ([], [])
  | fuel + 1, b :: rest =>
    if (b :: rest).length < utf8Len b then ([], b :: rest)
    else
      ((utf8GreedyGo fuel ((b :: rest).drop (utf8Len b))).1.cons
        (utf8DecChar ((b :: rest).take (utf8Len b))),
       (utf8GreedyGo fuel ((b :: rest).drop (utf8Len b))).2)

/-- utf8Greedy models the streaming UTF-8 decode of `TextDecoderStream`
(respectively `TextDecoder` with the `stream: true` flag) on a byte
sequence: complete sequences from the front are decoded into characters and
an incomplete trailing sequence is held back for the next chunk. -/
def utf8Greedy (bs : List Nat) : List Char × List Nat :=
  utf8GreedyGo bs.length bs

theorem utf8GreedyGo_fuel : ∀ (n m : Nat) (bs : List Nat),
    bs.length ≤ n → bs.length ≤ m → utf8GreedyGo n bs = utf8GreedyGo m bs := by
  intro n
  induction n with
  | zero =>
    intro m bs hn _
    have : bs = [] := List.length_eq_zero.mp (Nat.le_zero.mp hn)
    subst this
    cases m <;> rfl
  | succ k ih =>
    intro m bs hn hm
    cases m with
    | zero =>
      have : bs = [] := List.length_eq_zero.mp (Nat.le_zero.mp hm)
      subst this
      rfl
    | succ k' =>
      cases bs with
      | nil => rfl
      | cons b rest =>
        show (if (b :: rest).length < utf8Len b then ([], b :: rest)
          else
            ((utf8GreedyGo k ((b :: rest).drop (utf8Len b))).1.cons
              (utf8DecChar ((b :: rest).take (utf8Len b))),
             (utf8GreedyGo k ((b :: rest).drop (utf8Len b))).2)) =
          (if (b :: rest).length < utf8Len b then ([], b :: rest)
          else
            ((utf8GreedyGo k' ((b :: rest).drop (utf8Len b))).1.cons
              (utf8DecChar ((b :: rest).take (utf8Len b))),
             (utf8GreedyGo k' ((b :: rest).drop (utf8Len b))).2))
        have hdrop : ((b :: rest).drop (utf8Len b)).length ≤ k := by
          have := utf8Len_pos b
          simp only [List.length_drop, List.length_cons]
          simp at hn
          omega
        have hdrop' : ((b :: rest).drop (utf8Len b)).length ≤ k' := by
          have := utf8Len_pos b
          simp only [List.length_drop, List.length_cons]
          simp at hm
          omega
        rw [ih k' _ hdrop hdrop']

theorem utf8Greedy_cons_short {b : Nat} {t : List Nat}
    (h : (b :: t).length < utf8Len b) :
    utf8Greedy (b :: t) = ([], b :: t) := by
  show (if (b :: t).length < utf8Len b then ([], b :: t)
    else
      ((utf8GreedyGo t.length ((b :: t).drop (utf8Len b))).1.cons
        (utf8DecChar ((b :: t).take (utf8Len b))),
       (utf8GreedyGo t.length ((b :: t).drop (utf8Len b))).2)) = ([], b :: t)
  rw [if_pos h]

theorem utf8Greedy_cons_long {b : Nat} {t : List Nat}
    (h : ¬ (b :: t).length < utf8Len b) :
    utf8Greedy (b :: t) =
      ((utf8Greedy ((b :: t).drop (utf8Len b))).1.cons
        (utf8DecChar ((b :: t).take (utf8Len b))),
       (utf8Greedy ((b :: t).drop (utf8Len b))).2) := by
  show (if (b :: t).length < utf8Len b then ([], b :: t)
    else
      ((utf8GreedyGo t.length ((b :: t).drop (utf8Len b))).1.cons
        (utf8DecChar ((b :: t).take (utf8Len b))),
       (utf8GreedyGo t.length ((b :: t).drop (utf8Len b))).2)) = _
  rw [if_neg h]
  have hf : utf8GreedyGo t.length ((b :: t).drop (utf8Len b)) =
      utf8Greedy ((b :: t).drop (utf8Len b)) := by
    apply utf8GreedyGo_fuel
    · have := utf8Len_pos b
      simp only [List.length_drop, List.length_cons]
      omega
    · exact Nat.le_refl _
  rw [hf]

/-- Greedy UTF-8 decoding of appended byte sequences: decode the first part,
then decode its held-back leftover prepended to the second part. -/
theorem utf8Greedy_append (x y : List Nat) :
    utf8Greedy (x ++ y) =
      ((utf8Greedy x).1 ++ (utf8Greedy ((utf8Greedy x).2 ++ y)).1,
       (utf8Greedy ((utf8Greedy x).2 ++ y)).2) := by
  suffices h : ∀ (n : Nat) (x : List Nat), x.length ≤ n → ∀ y : List Nat,
      utf8Greedy (x ++ y) =
        ((utf8Greedy x).1 ++ (utf8Greedy ((utf8Greedy x).2 ++ y)).1,
         (utf8Greedy ((utf8Greedy x).2 ++ y)).2) from
    h x.length x (Nat.le_refl _) y
  intro n
  induction n with
  | zero =>
    intro x hx y
    have : x = [] := List.length_eq_zero.mp (Nat.le_zero.mp hx)
    subst this
    rfl
  | succ k ih =>
    intro x hx y
    cases x with
    | nil => rfl
    | cons b t =>
      by_cases hshort : (b :: t).length < utf8Len b
      · rw [utf8Greedy_cons_short hshort]
        rfl
      · have hlong' : ¬ ((b :: t) ++ y).length < utf8Len b := by
          simp only [List.length_append]
          simp at hshort ⊢
          omega
        have htake : ((b :: t) ++ y).take (utf8Len b) = (b :: t).take (utf8Len b) := by
          apply List.take_append_of_le_length
          simpa using hshort
        have hdrop : ((b :: t) ++ y).drop (utf8Len b) =
            (b :: t).drop (utf8Len b) ++ y := by
          apply List.drop_append_of_le_length
          simpa using hshort
        have hcons : (b :: t) ++ y = b :: (t ++ y) := rfl
        rw [hcons] at hlong' htake hdrop ⊢
        rw [utf8Greedy_cons_long hlong', utf8Greedy_cons_long hshort,
          htake, hdrop]
        have hdlen : ((b :: t).drop (utf8Len b)).length ≤ k := by
          have := utf8Len_pos b
          simp only [List.length_drop, List.length_cons]
          simp at hx
          omega
        rw [ih _ hdlen y]
        rfl

/-- The leftover held back by utf8Greedy is an incomplete sequence: running
the decoder on it alone makes no progress. -/
theorem utf8Greedy_leftover (x : List Nat) :
    utf8Greedy (utf8Greedy x).2 = ([], (utf8Greedy x).2) := by
  suffices h : ∀ (n : Nat) (x : List Nat), x.length ≤ n →
      utf8Greedy (utf8Greedy x).2 = ([], (utf8Greedy x).2) from
    h x.length x (Nat.le_refl _)
  intro n
  induction n with
  | zero =>
    intro x hx
    have : x = [] := List.length_eq_zero.mp (Nat.le_zero.mp hx)
    subst this
    rfl
  | succ k ih =>
    intro x hx
    cases x with
    | nil => rfl
    | cons b t =>
      by_cases hshort : (b :: t).length < utf8Len b
      · rw [utf8Greedy_cons_short hshort]
        exact utf8Greedy_cons_short hshort
      · rw [utf8Greedy_cons_long hshort]
        have hdlen : ((b :: t).drop (utf8Len b)).length ≤ k := by
          have := utf8Len_pos b
          simp only [List.length_drop, List.length_cons]
          simp at hx
          omega
        exact ih _ hdlen

/-- textDecoderFeed models `TextDecoderStream` over a list of arriving byte
chunks: each chunk is decoded together with the bytes held back from the
previous chunks, producing one text chunk per byte chunk.  (The final flush
of a dangling incomplete sequence is irrelevant here: every stream
considered below is a complete UTF-8 encoding, so the final holdback is
empty.) -/
def textDecoderFeed (pending : List Nat) : List (List Nat) → List (List Char)
  | [] => []
  | c :: cs =>
    (utf8Greedy (pending ++ c)).1 ::
      textDecoderFeed (utf8Greedy (pending ++ c)).2 cs

/-- The text chunks produced by the streaming decoder concatenate to the
greedy decode of the whole byte stream, whatever the chunk boundaries. -/
theorem textDecoderFeed_flatten :
    ∀ (bcs : List (List Nat)) (p : List Nat), utf8Greedy p = ([], p) →
      (textDecoderFeed p bcs).flatten = (utf8Greedy (p ++ bcs.flatten)).1 := by
  intro bcs
  induction bcs with
  | nil =>
    intro p hp
    show [] = (utf8Greedy (p ++ [])).1
    rw [List.append_nil, hp]
  | cons c cs ih =>
    intro p hp
    show (utf8Greedy (p ++ c)).1 ++
        (textDecoderFeed (utf8Greedy (p ++ c)).2 cs).flatten = _
    rw [ih (utf8Greedy (p ++ c)).2 (utf8Greedy_leftover _)]
    have hassoc : p ++ (c :: cs).flatten = (p ++ c) ++ cs.flatten := by
      simp [List.flatten_cons, List.append_assoc]
    rw [hassoc, utf8Greedy_append (p ++ c) cs.flatten]

/-- utf8EncodeChar encodes one character as its UTF-8 byte sequence,
matching the standard encoding used by the platform. -/
def utf8EncodeChar (c : Char) : List Nat :=
  let v := c.toNat
  if v < 128 then [v]
  else if v < 2048 then [192 + v / 64, 128 + v % 64]
  else if v < 65536 then
    [224 + v / 4096, 128 + v / 64 % 64, 128 + v % 64]
  else
    [240 + v / 262144, 128 + v / 4096 % 64, 128 + v / 64 % 64, 128 + v % 64]

/-- utf8Encode encodes a text as the concatenation of the UTF-8 byte
sequences of its characters. -/
def utf8Encode : List Char → List Nat
  | [] => []
  | c :: cs => utf8EncodeChar c ++ utf8Encode cs

theorem char_toNat_lt (c : Char) : c.toNat < 1114112 := by
  have h := c.valid
  show c.val.toNat < 1114112
  rcases h with h | ⟨_, h2⟩
  · omega
  · omega

/-- Greedy decoding consumes an encoded character in one step. -/
theorem utf8Greedy_encodeChar (c : Char) (rest : List Nat) :
    utf8Greedy (utf8EncodeChar c ++ rest) =
      ((utf8Greedy rest).1.cons c, (utf8Greedy rest).2) := by
  have hv : c.toNat < 1114112 := char_toNat_lt c
  by_cases h1 : c.toNat < 128
  · have henc : utf8EncodeChar c = [c.toNat] := by
      simp [utf8EncodeChar, h1]
    have hlen : utf8Len c.toNat = 1 := by
      simp [utf8Len, h1]
    rw [henc]
    show utf8Greedy (c.toNat :: rest) = _
    have hnot : ¬ (c.toNat :: rest).length < utf8Len c.toNat := by
      rw [hlen]; simp
    rw [utf8Greedy_cons_long hnot, hlen]
    simp only [List.drop_succ_cons, List.drop_zero, List.take_succ_cons,
      List.take_zero]
    show ((utf8Greedy rest).1.cons (Char.ofNat c.toNat), (utf8Greedy rest).2) = _
    rw [Char.ofNat_toNat]
  · by_cases h2 : c.toNat < 2048
    · have henc : utf8EncodeChar c =
          [192 + c.toNat / 64, 128 + c.toNat % 64] := by
        simp [utf8EncodeChar, h1, h2]
      have hlen : utf8Len (192 + c.toNat / 64) = 2 := by
        unfold utf8Len
        have : 192 + c.toNat / 64 < 224 := by omega
        have : ¬ 192 + c.toNat / 64 < 128 := by omega
        have : ¬ 192 + c.toNat / 64 < 192 := by omega
        split_ifs
        all_goals omega
      rw [henc]
      show utf8Greedy ((192 + c.toNat / 64) ::
        ((128 + c.toNat % 64) :: rest)) = _
      have hnot : ¬ ((192 + c.toNat / 64) :: (128 + c.toNat % 64) :: rest).length <
          utf8Len (192 + c.toNat / 64) := by
        rw [hlen]; simp
      rw [utf8Greedy_cons_long hnot, hlen]
      simp only [List.drop_succ_cons, List.drop_zero, List.take_succ_cons,
        List.take_zero]
      have hdec : utf8DecChar [192 + c.toNat / 64, 128 + c.toNat % 64] = c := by
        show Char.ofNat ((192 + c.toNat / 64) % 32 * 64 +
          (128 + c.toNat % 64) % 64) = c
        have harith : (192 + c.toNat / 64) % 32 * 64 +
            (128 + c.toNat % 64) % 64 = c.toNat := by omega
        rw [harith, Char.ofNat_toNat]
      rw [hdec]
    · by_cases h3 : c.toNat < 65536
      · have henc : utf8EncodeChar c =
            [224 + c.toNat / 4096, 128 + c.toNat / 64 % 64,
             128 + c.toNat % 64] := by
          simp [utf8EncodeChar, h1, h2, h3]
        have hlen : utf8Len (224 + c.toNat / 4096) = 3 := by
          unfold utf8Len
          have : 224 + c.toNat / 4096 < 240 := by omega
          have : ¬ 224 + c.toNat / 4096 < 128 := by omega
          have : ¬ 224 + c.toNat / 4096 < 192 := by omega
          have : ¬ 224 + c.toNat / 4096 < 224 := by omega
          split_ifs
          all_goals omega
        rw [henc]
        show utf8Greedy ((224 + c.toNat / 4096) ::
          ((128 + c.toNat / 64 % 64) :: (128 + c.toNat % 64) :: rest)) = _
        have hnot : ¬ ((224 + c.toNat / 4096) :: (128 + c.toNat / 64 % 64) ::
            (128 + c.toNat % 64) :: rest).length <
            utf8Len (224 + c.toNat / 4096) := by
          rw [hlen]; simp
        rw [utf8Greedy_cons_long hnot, hlen]
        simp only [List.drop_succ_cons, List.drop_zero, List.take_succ_cons,
          List.take_zero]
        have hdec : utf8DecChar [224 + c.toNat / 4096,
            128 + c.toNat / 64 % 64, 128 + c.toNat % 64] = c := by
          show Char.ofNat ((224 + c.toNat / 4096) % 16 * 4096 +
            (128 + c.toNat / 64 % 64) % 64 * 64 +
            (128 + c.toNat % 64) % 64) = c
          have harith : (224 + c.toNat / 4096) % 16 * 4096 +
              (128 + c.toNat / 64 % 64) % 64 * 64 +
              (128 + c.toNat % 64) % 64 = c.toNat := by omega
          rw [harith, Char.ofNat_toNat]
        rw [hdec]
      · have henc : utf8EncodeChar c =
            [240 + c.toNat / 262144, 128 + c.toNat / 4096 % 64,
             128 + c.toNat / 64 % 64, 128 + c.toNat % 64] := by
          simp [utf8EncodeChar, h1, h2, h3]
        have hlen : utf8Len (240 + c.toNat / 262144) = 4 := by
          unfold utf8Len
          have : 240 + c.toNat / 262144 < 248 := by omega
          have : ¬ 240 + c.toNat / 262144 < 128 := by omega
          have : ¬ 240 + c.toNat / 262144 < 192 := by omega
          have : ¬ 240 + c.toNat / 262144 < 224 := by omega
          have : ¬ 240 + c.toNat / 262144 < 240 := by omega
          split_ifs
          all_goals omega
        rw [henc]
        show utf8Greedy ((240 + c.toNat / 262144) ::
          ((128 + c.toNat / 4096 % 64) :: (128 + c.toNat / 64 % 64) ::
           (128 + c.toNat % 64) :: rest)) = _
        have hnot : ¬ ((240 + c.toNat / 262144) :: (128 + c.toNat / 4096 % 64) ::
            (128 + c.toNat / 64 % 64) :: (128 + c.toNat % 64) :: rest).length <
            utf8Len (240 + c.toNat / 262144) := by
          rw [hlen]; simp
        rw [utf8Greedy_cons_long hnot, hlen]
        simp only [List.drop_succ_cons, List.drop_zero, List.take_succ_cons,
          List.take_zero]
        have hdec : utf8DecChar [240 + c.toNat / 262144,
            128 + c.toNat / 4096 % 64, 128 + c.toNat / 64 % 64,
            128 + c.toNat % 64] = c := by
          show Char.ofNat ((240 + c.toNat / 262144) % 8 * 262144 +
            (128 + c.toNat / 4096 % 64) % 64 * 4096 +
            (128 + c.toNat / 64 % 64) % 64 * 64 +
            (128 + c.toNat % 64) % 64) = c
          have harith : (240 + c.toNat / 262144) % 8 * 262144 +
              (128 + c.toNat / 4096 % 64) % 64 * 4096 +
              (128 + c.toNat / 64 % 64) % 64 * 64 +
              (128 + c.toNat % 64) % 64 = c.toNat := by omega
          rw [harith, Char.ofNat_toNat]
        rw [hdec]

/-- Round trip: greedy decoding of an encoded text recovers the text with
no bytes held back. -/
theorem utf8Greedy_utf8Encode (cs : List Char) :
    utf8Greedy (utf8Encode cs) = (cs, []) := by
  induction cs with
  | nil => rfl
  | cons c cs ih =>
    show utf8Greedy (utf8EncodeChar c ++ utf8Encode cs) = _
    rw [utf8Greedy_encodeChar, ih]

/-- frameOk holds of a text that can occur as one complete extracted frame:
it contains no blank-line delimiter, not even one completed by the newline
that follows it in the wire text (equivalently, it has no delimiter inside
and does not end in a newline). -/
def frameOk (f : List Char) : Bool :=
  (breakDelim (f ++ ['\n'])).isNone

/-- A well-formed frame followed by a delimiter is split off exactly at that
delimiter. -/
theorem breakDelim_frame {f : List Char} (hf : frameOk f = true)
    (rest : List Char) :
    breakDelim (f ++ '\n' :: '\n' :: rest) = some (f, rest) := by
  induction f with
  | nil =>
    show breakDelim ('\n' :: '\n' :: rest) = some ([], rest)
    rw [breakDelim_cons₂, if_pos ⟨rfl, rfl⟩]
  | cons c t ih =>
    match t with
    | [] =>
      have hne : ¬ (c = '\n' ∧ '\n' = '\n') := by
        intro hc
        unfold frameOk at hf
        rw [show ([c] ++ ['\n']) = c :: '\n' :: [] from rfl,
          breakDelim_cons₂, if_pos ⟨hc.1, rfl⟩] at hf
        simp at hf
      show breakDelim (c :: '\n' :: '\n' :: rest) = some ([c], rest)
      rw [breakDelim_cons₂, if_neg (by
        intro hc
        exact hne ⟨hc.1, rfl⟩)]
      rw [breakDelim_cons₂, if_pos ⟨rfl, rfl⟩]
      rfl
    | d :: t' =>
      unfold frameOk at hf
      rw [show ((c :: d :: t') ++ ['\n']) = c :: d :: (t' ++ ['\n']) from rfl,
        breakDelim_cons₂] at hf
      have hne : ¬ (c = '\n' ∧ d = '\n') := by
        intro hc
        rw [if_pos hc] at hf
        simp at hf
      rw [if_neg hne] at hf
      have hsub : frameOk (d :: t') = true := by
        unfold frameOk
        rcases hb : breakDelim ((d :: t') ++ ['\n']) with _ | p
        · rfl
        · rw [show (d :: (t' ++ ['\n'])) = (d :: t') ++ ['\n'] from rfl,
            hb] at hf
          simp at hf
      show breakDelim (c :: d :: (t' ++ '\n' :: '\n' :: rest)) = _
      rw [breakDelim_cons₂, if_neg hne,
        show (d :: (t' ++ '\n' :: '\n' :: rest)) =
          (d :: t') ++ '\n' :: '\n' :: rest from rfl,
        ih hsub]
      rfl

/-- Splitting a reassembled sequence of well-formed frames followed by a
tail recovers exactly those frames in front of the frames of the tail. -/
theorem splitFrames_joinFrames_append {frames : List (List Char)}
    (hall : ∀ f ∈ frames, frameOk f = true) (tail : List Char) :
    splitFrames (joinFrames frames ++ tail) =
      (frames ++ (splitFrames tail).1, (splitFrames tail).2) := by
  induction frames with
  | nil =>
    rfl
  | cons f fs ih =>
    have hf : frameOk f = true := hall f (by simp)
    have hfs : ∀ g ∈ fs, frameOk g = true := fun g hg => hall g (by simp [hg])
    show splitFrames ((f ++ '\n' :: '\n' :: joinFrames fs) ++ tail) = _
    have hassoc : (f ++ '\n' :: '\n' :: joinFrames fs) ++ tail =
        f ++ '\n' :: '\n' :: (joinFrames fs ++ tail) := by
      simp [List.append_assoc]
    rw [hassoc, splitFrames_some (breakDelim_frame hf _), ih hfs]
    rfl

/-- dataOf is the data payload emitted for a frame with at least one data
line: the JSON parse of the newline-join of its data lines, or the raw
fallback. -/
def dataOf {α : Type} (jp : List Char → Option α) (f : List Char) : DataVal α :=
  let rawData := List.intercalate ['\n'] (parseFrame f).dataLines
  match jp rawData with
  | some a => DataVal.parsed a
  | none => DataVal.raw rawData

theorem frameEvent_no_data {α : Type} (jp : List Char → Option α)
    {f : List Char} (h : (parseFrame f).dataLines = []) :
    frameEvent jp f = none := by
  unfold frameEvent
  rw [if_pos h]

theorem frameEvent_with_data {α : Type} (jp : List Char → Option α)
    {f : List Char} (h : (parseFrame f).dataLines ≠ []) :
    frameEvent jp f =
      some (⟨typeOf (parseFrame f), dataOf jp f⟩,
        (parseFrame f).eventType == some ("done".toList)) := by
  unfold frameEvent dataOf
  rw [if_neg h]

theorem typeOf_eventType {ff : FrameFields} {t : List Char}
    (h : ff.eventType = some t) (ht : t ≠ []) : typeOf ff = t := by
  unfold typeOf
  rw [h]
  show (if t = [] then "content".toList else t) = t
  rw [if_neg ht]

namespace MessagesAPI

/-- A data-less frame is skipped entirely: decoding a stream that starts
with it equals decoding the stream without it. -/
theorem streamDecode_skip_frame {α : Type} (jp : List Char → Option α)
    {f : List Char} (hok : frameOk f = true)
    (hnd : (parseFrame f).dataLines = []) (rest : List Char) :
    streamDecode jp (f ++ '\n' :: '\n' :: rest) = streamDecode jp rest := by
  unfold streamDecode
  rw [splitFrames_some (breakDelim_frame hok rest), emitFrames_cons,
    frameEvent_no_data jp hnd]

/-- A leading data-carrying, non-terminal frame emits its event and
decoding continues with the rest of the stream. -/
theorem streamDecode_cons_frame {α : Type} (jp : List Char → Option α)
    {f : List Char} (hok : frameOk f = true)
    (hd : (parseFrame f).dataLines ≠ [])
    (hnotdone : (parseFrame f).eventType ≠ some ("done".toList))
    (rest : List Char) :
    streamDecode jp (f ++ '\n' :: '\n' :: rest) =
      ⟨typeOf (parseFrame f), dataOf jp f⟩ :: streamDecode jp rest := by
  unfold streamDecode
  rw [splitFrames_some (breakDelim_frame hok rest), emitFrames_cons,
    frameEvent_with_data jp hd]
  have hbeq : ((parseFrame f).eventType == some ("done".toList)) = false := by
    simp only [beq_eq_false_iff_ne, ne_eq]
    exact hnotdone
  rw [hbeq]
  rfl

/-- A leading data-carrying frame of type `done` emits its event and
decoding stops: nothing after it is decoded. -/
theorem streamDecode_done_frame {α : Type} (jp : List Char → Option α)
    {f : List Char} (hok : frameOk f = true)
    (hd : (parseFrame f).dataLines ≠ [])
    (hdone : (parseFrame f).eventType = some ("done".toList))
    (rest : List Char) :
    streamDecode jp (f ++ '\n' :: '\n' :: rest) =
      [⟨"done".toList, dataOf jp f⟩] := by
  unfold streamDecode
  rw [splitFrames_some (breakDelim_frame hok rest), emitFrames_cons,
    frameEvent_with_data jp hd]
  have hbeq : ((parseFrame f).eventType == some ("done".toList)) = true := by
    simp [hdone]
  rw [hbeq, typeOf_eventType hdone (by decide)]
  rfl

/-- The byte-level pipeline agrees with the one-shot text decode whenever
the byte chunks concatenate to a complete UTF-8 encoding of the text. -/
theorem streamDecode_bytes {α : Type} (jp : List Char → Option α)
    {text : List Char} {bcs : List (List Nat)}
    (h : bcs.flatten = utf8Encode text) :
    streamDecodeChunks jp (textDecoderFeed [] bcs) = streamDecode jp text := by
  rw [streamDecodeChunks_eq_streamDecode,
    textDecoderFeed_flatten bcs [] rfl]
  rw [List.nil_append, h, utf8Greedy_utf8Encode]

/-- After a run of well-formed frames that does not halt the decoder, a
data-carrying `done` frame emits its event and decoding stops, whatever
bytes follow. -/
theorem streamDecode_until_done {α : Type} (jp : List Char → Option α)
    {pre : List (List Char)} (hpre : ∀ f ∈ pre, frameOk f = true)
    (hnh : (emitFrames jp pre).2 = false)
    {df : List Char} (hok : frameOk df = true)
    (hd : (parseFrame df).dataLines ≠ [])
    (hdone : (parseFrame df).eventType = some ("done".toList))
    (suffix : List Char) :
    streamDecode jp (joinFrames pre ++ df ++ '\n' :: '\n' :: suffix) =
      (emitFrames jp pre).1 ++ [⟨"done".toList, dataOf jp df⟩] := by
  unfold streamDecode
  rw [List.append_assoc (joinFrames pre) df ('\n' :: '\n' :: suffix),
    splitFrames_joinFrames_append hpre (df ++ '\n' :: '\n' :: suffix),
    splitFrames_some (breakDelim_frame hok suffix)]
  show (emitFrames jp (pre ++ df :: (splitFrames suffix).1)).1 = _
  rw [emitFrames_append, hnh]
  show ((emitFrames jp pre).1 ++
    (emitFrames jp (df :: (splitFrames suffix).1)).1, _).1 = _
  rw [emitFrames_cons, frameEvent_with_data jp hd]
  have hbeq : ((parseFrame df).eventType == some ("done".toList)) = true := by
    simp [hdone]
  rw [hbeq, typeOf_eventType hdone (by decide)]
  rfl

/-- StreamResponse models the `fetch` response seen by `MessagesAPI.stream`:
the success flag, status code and error body text of the HTTP response, the
presence of a readable body, and the byte chunks the body delivers. -/
structure StreamResponse where
  ok : Bool
  status : Nat
  bodyText : List Char
  hasBody : Bool
  chunks : List (List Nat)

/-- stream is the full `MessagesAPI.stream` operation on a response: a
non-success response makes it throw an error carrying the status code and
the body text, a success response with no body throws the no-body error,
and otherwise the byte chunks are decoded into events. -/
def stream {α : Type} (jp : List Char → Option α) (r : StreamResponse) :
    Except (List Char) (List (Event α)) :=
  if r.ok = false then
    Except.error ("Stream request failed: ".toList ++
      (Nat.repr r.status).toList ++ ' ' :: r.bodyText)
  else if r.hasBody = false then
    Except.error "No response body for streaming".toList
  else
    Except.ok (streamDecodeChunks jp (textDecoderFeed [] r.chunks))

end MessagesAPI

namespace MessagesAPI

/-- bufferState is the value of the `buffer` variable of the decode loop
after the given text chunks have been processed. -/
def bufferState (chunks : List (List Char)) : List Char :=
  chunks.foldl (fun b c => (splitFrames (b ++ c)).2) []

theorem bufferState_foldl :
    ∀ (tcs : List (List Char)) (buf : List Char), breakDelim buf = none →
      tcs.foldl (fun b c => (splitFrames (b ++ c)).2) buf =
        (splitFrames (buf ++ tcs.flatten)).2 := by
  intro tcs
  induction tcs with
  | nil =>
    intro buf hbuf
    show buf = (splitFrames (buf ++ [])).2
    rw [List.append_nil, splitFrames_none hbuf]
  | cons c cs ih =>
    intro buf hbuf
    show cs.foldl (fun b c => (splitFrames (b ++ c)).2)
        ((splitFrames (buf ++ c)).2) = _
    rw [ih (splitFrames (buf ++ c)).2 (splitFrames_no_delim _)]
    have hassoc : buf ++ (c :: cs).flatten = (buf ++ c) ++ cs.flatten := by
      simp [List.flatten_cons, List.append_assoc]
    rw [hassoc, splitFrames_append (buf ++ c) cs.flatten]

end MessagesAPI

/-- Splitting a reassembled sequence of well-formed frames recovers exactly
those frames with an empty remainder. -/
theorem splitFrames_joinFrames {frames : List (List Char)}
    (hall : ∀ f ∈ frames, frameOk f = true) :
    splitFrames (joinFrames frames) = (frames, []) := by
  have h := splitFrames_joinFrames_append hall []
  rw [List.append_nil] at h
  rw [h]
  show (frames ++ ([] : List (List Char)), ([] : List Char)) = (frames, [])
  rw [List.append_nil]

/-- Emitting a list of data-carrying non-terminal frames yields exactly one
event per frame and does not halt. -/
theorem emitFrames_valid {α : Type} (jp : List Char → Option α)
    {frames : List (List Char)}
    (hall : ∀ f ∈ frames, (parseFrame f).dataLines ≠ [] ∧
      (parseFrame f).eventType ≠ some ("done".toList)) :
    (emitFrames jp frames).1.length = frames.length ∧
      (emitFrames jp frames).2 = false := by
  induction frames with
  | nil => exact ⟨rfl, rfl⟩
  | cons f fs ih =>
    have hf := hall f (by simp)
    have hfs : ∀ g ∈ fs, (parseFrame g).dataLines ≠ [] ∧
        (parseFrame g).eventType ≠ some ("done".toList) :=
      fun g hg => hall g (by simp [hg])
    have hbeq : ((parseFrame f).eventType == some ("done".toList)) = false := by
      simp only [beq_eq_false_iff_ne, ne_eq]
      exact hf.2
    rw [emitFrames_cons, frameEvent_with_data jp hf.1, hbeq]
    obtain ⟨ih1, ih2⟩ := ih hfs
    constructor
    · show ((emitFrames jp fs).1.cons _).length = fs.length + 1
      rw [List.length_cons, ih1]
    · exact ih2

/-- An `event:` line sets the event type to its whitespace-stripped value,
whatever the previous state was. -/
theorem parseLine_event (st : FrameFields) (w : List Char) :
    parseLine st ("event:".toList ++ w) =
      { st with eventType := some (w.dropWhile jsWs) } := by
  unfold parseLine
  rw [if_pos (by
    rw [List.isPrefixOf_iff_prefix]
    exact List.prefix_append _ _)]
  unfold stripTag
  rw [List.drop_left' (by rfl)]

/-- Lines that are not `event:` lines leave the event type unchanged. -/
theorem parseLine_eventType_stable {l : List Char}
    (h : ("event:".toList).isPrefixOf l = false) (st : FrameFields) :
    (parseLine st l).eventType = st.eventType := by
  unfold parseLine
  rw [if_neg (by rw [h]; simp)]
  split
  · rfl
  · rfl

theorem parseFrameLines_eventType_stable {ls : List (List Char)}
    (h : ∀ l ∈ ls, ("event:".toList).isPrefixOf l = false) (st : FrameFields) :
    (List.foldl parseLine st ls).eventType = st.eventType := by
  induction ls generalizing st with
  | nil => rfl
  | cons l t ih =>
    have hl : ("event:".toList).isPrefixOf l = false := h l (by simp)
    have ht : ∀ l' ∈ t, ("event:".toList).isPrefixOf l' = false :=
      fun l' hl' => h l' (by simp [hl'])
    show (List.foldl parseLine (parseLine st l) t).eventType = st.eventType
    rw [ih ht (parseLine st l), parseLine_eventType_stable hl st]

namespace NimbleBrain

/-- streamMessageLines is the line loop of `NimbleBrain.streamMessage` in
`src/src/nimblebrain.ts`: `cur` is the `currentEventType` variable, which
starts empty, persists across lines (and hence across frames), and is
overwritten by every `event: ` line; a `data: ` line yields an event only
when `cur` is non-empty (truthy) and its payload JSON-parses, and parse
failures are silently ignored.  Returns the emitted events and the final
`currentEventType`. -/
def streamMessageLines {α : Type} (jp : List Char → Option α)
    (cur : List Char) : List (List Char) → List (Event α) × List Char
  | [] => ([], cur)
  | l :: ls =>
    if ("event: ".toList).isPrefixOf l then
      streamMessageLines jp (l.drop 7) ls
    else if ("data: ".toList).isPrefixOf l && !cur.isEmpty then
      match jp (l.drop 6) with
      | some a =>
        ((streamMessageLines jp cur ls).1.cons ⟨cur, DataVal.parsed a⟩,
         (streamMessageLines jp cur ls).2)
      | none => streamMessageLines jp cur ls
    else streamMessageLines jp cur ls

/-- streamMessage is the whole-stream decode of `NimbleBrain.streamMessage`:
all complete lines of the delivered text (the part after the last newline
stays in the buffer) are processed by the line loop. -/
def streamMessage {α : Type} (jp : List Char → Option α) (text : List Char) :
    List (Event α) :=
  (streamMessageLines jp [] ((splitLines text).dropLast)).1

theorem streamMessageLines_cons {α : Type} (jp : List Char → Option α)
    (cur l : List Char) (ls : List (List Char)) :
    streamMessageLines jp cur (l :: ls) =
      if ("event: ".toList).isPrefixOf l then
        streamMessageLines jp (l.drop 7) ls
      else if ("data: ".toList).isPrefixOf l && !cur.isEmpty then
        match jp (l.drop 6) with
        | some a =>
          ((streamMessageLines jp cur ls).1.cons ⟨cur, DataVal.parsed a⟩,
           (streamMessageLines jp cur ls).2)
        | none => streamMessageLines jp cur ls
      else streamMessageLines jp cur ls := rfl

theorem streamMessageLines_append {α : Type} (jp : List Char → Option α)
    (cur : List Char) (xs ys : List (List Char)) :
    streamMessageLines jp cur (xs ++ ys) =
      ((streamMessageLines jp cur xs).1 ++
        (streamMessageLines jp (streamMessageLines jp cur xs).2 ys).1,
       (streamMessageLines jp (streamMessageLines jp cur xs).2 ys).2) := by
  induction xs generalizing cur with
  | nil => rfl
  | cons l ls ih =>
    rw [List.cons_append, streamMessageLines_cons, streamMessageLines_cons]
    by_cases hev : ("event: ".toList).isPrefixOf l = true
    · rw [if_pos hev, if_pos hev, ih (l.drop 7)]
    · rw [if_neg hev, if_neg hev]
      by_cases hdata : (("data: ".toList).isPrefixOf l && !cur.isEmpty) = true
      · rw [if_pos hdata, if_pos hdata]
        rcases jp (l.drop 6) with _ | a
        · exact ih cur
        · rw [ih cur]
          rfl
      · rw [if_neg hdata, if_neg hdata]
        exact ih cur

/-- Lines that are not `event: ` lines never change the current event type,
and while it is empty they can emit nothing either. -/
theorem streamMessageLines_no_event {α : Type} (jp : List Char → Option α)
    {ls : List (List Char)}
    (h : ∀ l ∈ ls, ("event: ".toList).isPrefixOf l = false) :
    streamMessageLines jp [] ls = ([], []) := by
  induction ls with
  | nil => rfl
  | cons l t ih =>
    have hl : ("event: ".toList).isPrefixOf l = false := h l (by simp)
    have ht : ∀ l' ∈ t, ("event: ".toList).isPrefixOf l' = false :=
      fun l' hl' => h l' (by simp [hl'])
    rw [streamMessageLines_cons, if_neg (by rw [hl]; simp)]
    rw [if_neg (by simp)]
    exact ih ht

/-- Non-`event: ` lines leave the current event type unchanged. -/
theorem streamMessageLines_cur {α : Type} (jp : List Char → Option α)
    (cur : List Char) {ls : List (List Char)}
    (h : ∀ l ∈ ls, ("event: ".toList).isPrefixOf l = false) :
    (streamMessageLines jp cur ls).2 = cur := by
  induction ls generalizing cur with
  | nil => rfl
  | cons l t ih =>
    have hl : ("event: ".toList).isPrefixOf l = false := h l (by simp)
    have ht : ∀ l' ∈ t, ("event: ".toList).isPrefixOf l' = false :=
      fun l' hl' => h l' (by simp [hl'])
    rw [streamMessageLines_cons, if_neg (by rw [hl]; simp)]
    by_cases hdata : (("data: ".toList).isPrefixOf l && !cur.isEmpty) = true
    · rw [if_pos hdata]
      rcases jp (l.drop 6) with _ | a
      · exact ih cur ht
      · exact ih cur ht
    · rw [if_neg hdata]
      exact ih cur ht

/-- An `event: ` line replaces the current event type with its value. -/
theorem streamMessageLines_event_then {α : Type} (jp : List Char → Option α)
    (cur t : List Char) (X : List (List Char)) :
    streamMessageLines jp cur (("event: ".toList ++ t) :: X) =
      streamMessageLines jp t X := by
  rw [streamMessageLines_cons, if_pos (by
    rw [List.isPrefixOf_iff_prefix]
    exact List.prefix_append _ _)]
  rw [List.drop_left' (by decide)]

/-- While a non-empty event type is current, a `data: ` line with a payload
that parses emits one event carrying that type. -/
theorem streamMessageLines_data_emit {α : Type} (jp : List Char → Option α)
    {t : List Char} (ht : t ≠ []) {j : List Char} {a : α}
    (hj : jp j = some a) (X : List (List Char)) :
    streamMessageLines jp t (("data: ".toList ++ j) :: X) =
      ((streamMessageLines jp t X).1.cons ⟨t, DataVal.parsed a⟩,
       (streamMessageLines jp t X).2) := by
  have hnotev : ("event: ".toList).isPrefixOf ("data: ".toList ++ j) = false := rfl
  have hdp : ("data: ".toList).isPrefixOf ("data: ".toList ++ j) = true := by
    rw [List.isPrefixOf_iff_prefix]
    exact List.prefix_append _ _
  have hte : t.isEmpty = false := by
    cases t with
    | nil => exact absurd rfl ht
    | cons c cs => rfl
  rw [streamMessageLines_cons, if_neg (by rw [hnotev]; simp),
    if_pos (by rw [hdp, hte]; rfl),
    List.drop_left' (show ("data: ".toList).length = 6 by decide), hj]

end NimbleBrain

/-- jpEmpty is a concrete stand-in for the platform JSON parser used in
witnesses: it accepts exactly the payload text `\x7b\x7d` (the empty JSON
object) and rejects everything else. -/
def jpEmpty : List Char → Option Unit :=
  fun s => if s = "\x7b\x7d".toList then some () else none

/-- C1: for every sequence of SSE frames concatenated with blank-line
delimiters, and for every way of splitting the resulting byte stream into
chunks (including splits inside the two-newline delimiter, inside a UTF-8
multi-byte character, and one byte at a time), the stream decoder yields
the same sequence of Events as the one-shot decode: the decoded output is
invariant under chunk-boundary placement. -/
theorem claim_C1 {α : Type} (jp : List Char → Option α)
    (frames : List (List Char)) (bcs : List (List Nat))
    (h : bcs.flatten = utf8Encode (joinFrames frames)) :
    MessagesAPI.streamDecodeChunks jp (textDecoderFeed [] bcs) =
      MessagesAPI.streamDecode jp (joinFrames frames) :=
  MessagesAPI.streamDecode_bytes jp h

/-- C1 witness: a two-frame stream whose UTF-8 bytes (the data payload
contains the two-byte character é) are delivered one byte at a time decodes
to the same events as the one-shot decode. -/
theorem claim_C1_witness :
    MessagesAPI.streamDecodeChunks jpEmpty
      (textDecoderFeed []
        ((utf8Encode (joinFrames
          ["event: content\ndata: \xe9".toList, "event: done\ndata: \x7b\x7d".toList])).map
            (fun b => [b]))) =
      MessagesAPI.streamDecode jpEmpty (joinFrames
        ["event: content\ndata: \xe9".toList, "event: done\ndata: \x7b\x7d".toList]) :=
  claim_C1 jpEmpty
    ["event: content\ndata: \xe9".toList, "event: done\ndata: \x7b\x7d".toList]
    ((utf8Encode (joinFrames
      ["event: content\ndata: \xe9".toList, "event: done\ndata: \x7b\x7d".toList])).map
        (fun b => [b]))
    (by decide)

/-- C2 counterexample: the input stream contains a frame whose event type
is `done` (the bare frame `event: done`, with no data line) followed by
further bytes holding a `content` frame.  Contrary to the claim, the
decoder does not yield the `done` event and does not stop: it emits the
`content` event that comes from the bytes after the `done` frame. -/
theorem claim_C2_counterexample :
    MessagesAPI.streamDecode jpEmpty
      ("event: done\n\nevent: content\ndata: \x7b\x7d\n\n".toList) =
      [⟨"content".toList, DataVal.parsed ()⟩] ∧
    "content".toList ≠ "done".toList := by
  constructor
  · decide
  · decide

/-- C2 (amended): for every input stream consisting of non-halting
well-formed frames, then a frame of event type `done` that carries at least
one data line, then arbitrary further bytes, the decoder yields the events
of the leading frames and the `done` event and then stops immediately: no
event is emitted from the bytes after the `done` frame, whatever they are
and however the byte stream is chunked. -/
theorem claim_C2 {α : Type} (jp : List Char → Option α)
    (pre : List (List Char)) (hpre : ∀ f ∈ pre, frameOk f = true)
    (hnh : (emitFrames jp pre).2 = false)
    (df : List Char) (hok : frameOk df = true)
    (hd : (parseFrame df).dataLines ≠ [])
    (hdone : (parseFrame df).eventType = some ("done".toList))
    (suffix : List Char) (bcs : List (List Nat))
    (hbytes : bcs.flatten =
      utf8Encode (joinFrames pre ++ df ++ '\n' :: '\n' :: suffix)) :
    MessagesAPI.streamDecodeChunks jp (textDecoderFeed [] bcs) =
      (emitFrames jp pre).1 ++ [⟨"done".toList, dataOf jp df⟩] := by
  rw [MessagesAPI.streamDecode_bytes jp hbytes]
  exact MessagesAPI.streamDecode_until_done jp hpre hnh hok hd hdone suffix

/-- C2 witness: one content frame, a data-carrying done frame, and a
trailing content frame plus garbage after it; the decode stops at the done
event. -/
theorem claim_C2_witness :
    MessagesAPI.streamDecodeChunks jpEmpty
      (textDecoderFeed []
        [utf8Encode (joinFrames ["event: content\ndata: \x7b\x7d".toList] ++
          "event: done\ndata: \x7b\x7d".toList ++
          '\n' :: '\n' :: "event: content\ndata: \x7b\x7d\n\ngarbage".toList)]) =
      (emitFrames jpEmpty ["event: content\ndata: \x7b\x7d".toList]).1 ++
        [⟨"done".toList, dataOf jpEmpty "event: done\ndata: \x7b\x7d".toList⟩] :=
  claim_C2 jpEmpty ["event: content\ndata: \x7b\x7d".toList]
    (by decide) (by decide) "event: done\ndata: \x7b\x7d".toList
    (by decide) (by decide) (by decide)
    ("event: content\ndata: \x7b\x7d\n\ngarbage".toList)
    [utf8Encode (joinFrames ["event: content\ndata: \x7b\x7d".toList] ++
      "event: done\ndata: \x7b\x7d".toList ++
      '\n' :: '\n' :: "event: content\ndata: \x7b\x7d\n\ngarbage".toList)]
    (by decide)

/-- C3 counterexample: a frame containing only `event: tool.complete` and
no data line yields no event at all (the claim said it yields an event
with empty data). -/
theorem claim_C3_counterexample :
    MessagesAPI.streamDecode jpEmpty ("event: tool.complete\n\n".toList) = [] := by
  decide

/-- C3 (amended): a frame with an `event:` line but no `data:` line yields
no event: the frame is skipped entirely (`MessagesAPI.stream` emits an
event only for frames with at least one data line) and decoding continues
with the rest of the stream. -/
theorem claim_C3 {α : Type} (jp : List Char → Option α)
    (f : List Char) (hok : frameOk f = true)
    (hnd : (parseFrame f).dataLines = []) (rest : List Char) :
    MessagesAPI.streamDecode jp (f ++ '\n' :: '\n' :: rest) =
      MessagesAPI.streamDecode jp rest :=
  MessagesAPI.streamDecode_skip_frame jp hok hnd rest

/-- C3 witness: the dataless `event: tool.complete` frame is skipped and a
following content frame still decodes. -/
theorem claim_C3_witness :
    MessagesAPI.streamDecode jpEmpty
      ("event: tool.complete".toList ++ '\n' :: '\n' ::
        "event: content\ndata: \x7b\x7d\n\n".toList) =
      MessagesAPI.streamDecode jpEmpty
        ("event: content\ndata: \x7b\x7d\n\n".toList) :=
  claim_C3 jpEmpty "event: tool.complete".toList (by decide) (by decide)
    ("event: content\ndata: \x7b\x7d\n\n".toList)

/-- C4: a frame whose joined data text fails JSON parsing yields an event
whose data is the raw-text fallback, and decoding continues with the
subsequent frames (the frame is non-terminal, so the single malformed
payload does not abort the stream). -/
theorem claim_C4 {α : Type} (jp : List Char → Option α)
    (f : List Char) (hok : frameOk f = true)
    (hd : (parseFrame f).dataLines ≠ [])
    (hfail : jp (List.intercalate ['\n'] (parseFrame f).dataLines) = none)
    (hnotdone : (parseFrame f).eventType ≠ some ("done".toList))
    (rest : List Char) :
    MessagesAPI.streamDecode jp (f ++ '\n' :: '\n' :: rest) =
      ⟨typeOf (parseFrame f),
        DataVal.raw (List.intercalate ['\n'] (parseFrame f).dataLines)⟩ ::
        MessagesAPI.streamDecode jp rest := by
  have hdata : dataOf jp f =
      DataVal.raw (List.intercalate ['\n'] (parseFrame f).dataLines) := by
    unfold dataOf
    simp only [hfail]
  rw [MessagesAPI.streamDecode_cons_frame jp hok hd hnotdone rest, hdata]

/-- C4 witness: a frame with the malformed payload `not-json-\x7b\x7b\x7b`
yields the raw fallback event and the following frame still decodes. -/
theorem claim_C4_witness :
    MessagesAPI.streamDecode jpEmpty
      ("data: not-json-\x7b\x7b\x7b".toList ++ '\n' :: '\n' ::
        "event: content\ndata: \x7b\x7d\n\n".toList) =
      ⟨typeOf (parseFrame "data: not-json-\x7b\x7b\x7b".toList),
        DataVal.raw (List.intercalate ['\n']
          (parseFrame "data: not-json-\x7b\x7b\x7b".toList).dataLines)⟩ ::
        MessagesAPI.streamDecode jpEmpty
          ("event: content\ndata: \x7b\x7d\n\n".toList) :=
  claim_C4 jpEmpty "data: not-json-\x7b\x7b\x7b".toList
    (by decide) (by decide) (by decide) (by decide)
    ("event: content\ndata: \x7b\x7d\n\n".toList)

/-- C5: for every HTTP response with a non-success status, the stream
operation fails before yielding any event, with an error message that
contains the numeric status code and ends with the raw response body
text. -/
theorem claim_C5 {α : Type} (jp : List Char → Option α)
    (r : MessagesAPI.StreamResponse) (h : r.ok = false) :
    MessagesAPI.stream jp r =
      Except.error ("Stream request failed: ".toList ++
        (Nat.repr r.status).toList ++ ' ' :: r.bodyText) ∧
    List.IsInfix ((Nat.repr r.status).toList)
      ("Stream request failed: ".toList ++
        (Nat.repr r.status).toList ++ ' ' :: r.bodyText) ∧
    List.IsSuffix r.bodyText
      ("Stream request failed: ".toList ++
        (Nat.repr r.status).toList ++ ' ' :: r.bodyText) := by
  refine ⟨?_, ?_, ?_⟩
  · unfold MessagesAPI.stream
    rw [if_pos h]
  · exact ⟨"Stream request failed: ".toList, ' ' :: r.bodyText, rfl⟩
  · exact ⟨"Stream request failed: ".toList ++ (Nat.repr r.status).toList ++
      [' '], by simp⟩

/-- C5 witness: a mock 401 response with body `Unauthorized` makes the
stream fail with the error text `Stream request failed: 401 Unauthorized`
before any event is produced. -/
theorem claim_C5_witness :
    MessagesAPI.stream jpEmpty
      ⟨false, 401, "Unauthorized".toList, true, []⟩ =
      Except.error ("Stream request failed: 401 Unauthorized".toList) := by
  have h := claim_C5 jpEmpty ⟨false, 401, "Unauthorized".toList, true, []⟩ rfl
  rw [h.1]
  exact congrArg Except.error (by decide)

/-- C6: after processing every chunk, the accumulated text buffer contains
exactly the suffix of all received text that follows the last blank-line
delimiter consumed so far: the received text is the reassembled complete
frames followed by the buffer, and the buffer holds no further delimiter.
Stated for all chunk lists, so it holds at every step of the decode loop. -/
theorem claim_C6 (tcs : List (List Char)) :
    MessagesAPI.bufferState tcs = (splitFrames tcs.flatten).2 ∧
    joinFrames (splitFrames tcs.flatten).1 ++ MessagesAPI.bufferState tcs =
      tcs.flatten ∧
    breakDelim (MessagesAPI.bufferState tcs) = none := by
  have hb : MessagesAPI.bufferState tcs = (splitFrames tcs.flatten).2 := by
    unfold MessagesAPI.bufferState
    rw [MessagesAPI.bufferState_foldl tcs [] rfl, List.nil_append]
  refine ⟨hb, ?_, ?_⟩
  · rw [hb]
    exact joinFrames_splitFrames tcs.flatten
  · rw [hb]
    exact splitFrames_no_delim tcs.flatten

/-- C7 counterexample: in the frame `event: a`, `data: x`, `event:` the
last `event:` line has the empty value, yet the emitted event type is
`content` (the empty value is falsy and triggers the default), not the
last `event:` line value. -/
theorem claim_C7_counterexample :
    (parseFrame ("event: a\ndata: x\nevent:".toList)).eventType = some [] ∧
    MessagesAPI.streamDecode jpEmpty ("event: a\ndata: x\nevent:\n\n".toList) =
      [⟨"content".toList, DataVal.raw ['x']⟩] ∧
    "content".toList ≠ ([] : List Char) := by
  refine ⟨by decide, by decide, by decide⟩

/-- C7 (amended): within a single frame a later `event:` line overwrites
any earlier one, including an `event:` line appearing after `data:` lines:
the parsed event-type field is always the whitespace-stripped value of the
last `event:` line, and the emitted event type equals that value whenever
it is non-empty (an empty value falls back to `content`). -/
theorem claim_C7 (ls1 : List (List Char)) (w : List Char)
    (ls2 : List (List Char))
    (h2 : ∀ l ∈ ls2, ("event:".toList).isPrefixOf l = false) :
    (parseFrameLines (ls1 ++ ("event:".toList ++ w) :: ls2)).eventType =
      some (w.dropWhile jsWs) ∧
    (w.dropWhile jsWs ≠ [] →
      typeOf (parseFrameLines (ls1 ++ ("event:".toList ++ w) :: ls2)) =
        w.dropWhile jsWs) := by
  have key : (parseFrameLines (ls1 ++ ("event:".toList ++ w) :: ls2)).eventType =
      some (w.dropWhile jsWs) := by
    unfold parseFrameLines
    rw [List.foldl_append]
    show (List.foldl parseLine
      (parseLine (List.foldl parseLine ⟨none, []⟩ ls1) ("event:".toList ++ w))
      ls2).eventType = _
    rw [parseFrameLines_eventType_stable h2, parseLine_event]
  exact ⟨key, fun hne => typeOf_eventType key hne⟩

/-- C7 witness: with a data line first and an `event:  tool.complete` line
after it, the frame type field is `tool.complete`. -/
theorem claim_C7_witness :
    (parseFrameLines (["data: x".toList] ++
      ("event:".toList ++ " tool.complete".toList) :: [])).eventType =
      some (" tool.complete".toList.dropWhile jsWs) :=
  (claim_C7 ["data: x".toList] " tool.complete".toList [] (by decide)).1

/-- C8: a successful response whose byte chunks deliver exactly N complete
data-carrying non-terminal frames decodes without error to exactly N
events and then the sequence ends normally. -/
theorem claim_C8 {α : Type} (jp : List Char → Option α)
    (frames : List (List Char))
    (hall : ∀ f ∈ frames, frameOk f = true ∧
      (parseFrame f).dataLines ≠ [] ∧
      (parseFrame f).eventType ≠ some ("done".toList))
    (r : MessagesAPI.StreamResponse) (hok : r.ok = true)
    (hbody : r.hasBody = true)
    (hchunks : r.chunks.flatten = utf8Encode (joinFrames frames)) :
    MessagesAPI.stream jp r =
      Except.ok (MessagesAPI.streamDecode jp (joinFrames frames)) ∧
    (MessagesAPI.streamDecode jp (joinFrames frames)).length = frames.length := by
  constructor
  · unfold MessagesAPI.stream
    rw [if_neg (by rw [hok]; simp), if_neg (by rw [hbody]; simp),
      MessagesAPI.streamDecode_bytes jp hchunks]
  · unfold MessagesAPI.streamDecode
    rw [splitFrames_joinFrames (fun f hf => (hall f hf).1)]
    exact (emitFrames_valid jp (fun f hf => (hall f hf).2)).1

/-- C8 witness: two valid non-terminal frames delivered in one chunk yield
a normal result of exactly two events. -/
theorem claim_C8_witness :
    MessagesAPI.stream jpEmpty ⟨true, 200, [], true,
      [utf8Encode (joinFrames
        ["event: content\ndata: \x7b\x7d".toList, "data: hello".toList])]⟩ =
      Except.ok (MessagesAPI.streamDecode jpEmpty (joinFrames
        ["event: content\ndata: \x7b\x7d".toList, "data: hello".toList])) ∧
    (MessagesAPI.streamDecode jpEmpty (joinFrames
      ["event: content\ndata: \x7b\x7d".toList, "data: hello".toList])).length =
      (["event: content\ndata: \x7b\x7d".toList,
        "data: hello".toList] : List (List Char)).length :=
  claim_C8 jpEmpty
    ["event: content\ndata: \x7b\x7d".toList, "data: hello".toList]
    (by decide)
    ⟨true, 200, [], true,
      [utf8Encode (joinFrames
        ["event: content\ndata: \x7b\x7d".toList, "data: hello".toList])]⟩
    rfl rfl (by decide)

/-- C9: in the `streamMessage` decoder of `src/src/nimblebrain.ts` the
current event type persists across frame boundaries: a `data: ` line whose
payload parses is emitted with the type set by the most recent `event: `
line anywhere earlier in the stream (first conjunct, where `ls2` may
contain blank lines, i.e. frame boundaries); and every `data: ` line
arriving before any `event: ` line has been seen is silently dropped,
yielding no event (second conjunct). -/
theorem claim_C9 {α : Type} (jp : List Char → Option α) :
    (∀ (ls1 : List (List Char)) (t : List Char) (ls2 : List (List Char))
        (j : List Char) (a : α),
      (∀ l ∈ ls2, ("event: ".toList).isPrefixOf l = false) → t ≠ [] →
        jp j = some a →
        (NimbleBrain.streamMessageLines jp []
            (ls1 ++ ("event: ".toList ++ t) ::
              (ls2 ++ [("data: ".toList ++ j)]))).1 =
          (NimbleBrain.streamMessageLines jp []
            (ls1 ++ ("event: ".toList ++ t) :: ls2)).1 ++
            [⟨t, DataVal.parsed a⟩]) ∧
    (∀ (ls1 : List (List Char)) (j : List Char) (rest : List (List Char)),
      (∀ l ∈ ls1, ("event: ".toList).isPrefixOf l = false) →
        (NimbleBrain.streamMessageLines jp []
            (ls1 ++ ("data: ".toList ++ j) :: rest)).1 =
          (NimbleBrain.streamMessageLines jp [] rest).1) := by
  constructor
  · intro ls1 t ls2 j a h2 ht hj
    rw [NimbleBrain.streamMessageLines_append jp [] ls1
        ((("event: ".toList ++ t)) :: (ls2 ++ [("data: ".toList ++ j)])),
      NimbleBrain.streamMessageLines_append jp [] ls1
        ((("event: ".toList ++ t)) :: ls2),
      NimbleBrain.streamMessageLines_event_then jp _ t
        (ls2 ++ [("data: ".toList ++ j)]),
      NimbleBrain.streamMessageLines_event_then jp _ t ls2,
      NimbleBrain.streamMessageLines_append jp t ls2 [("data: ".toList ++ j)],
      NimbleBrain.streamMessageLines_cur jp t h2,
      NimbleBrain.streamMessageLines_data_emit jp ht hj []]
    simp [List.append_assoc]
    rfl
  · intro ls1 j rest h1
    rw [NimbleBrain.streamMessageLines_append jp [] ls1
        (("data: ".toList ++ j) :: rest),
      NimbleBrain.streamMessageLines_no_event jp h1]
    show (NimbleBrain.streamMessageLines jp []
      (("data: ".toList ++ j) :: rest)).1 = _
    rw [NimbleBrain.streamMessageLines_cons,
      if_neg (by
        rw [show ("event: ".toList).isPrefixOf ("data: ".toList ++ j) = false
          from rfl]
        simp),
      if_neg (by simp)]

/-- C9 witness: the type `content` set before a frame boundary (a blank
line) is used for a later `data: ` line, and a `data: ` line before any
`event: ` line yields nothing. -/
theorem claim_C9_witness :
    ((NimbleBrain.streamMessageLines jpEmpty []
        ([] ++ ("event: ".toList ++ "content".toList) ::
          ([[]] ++ [("data: ".toList ++ "\x7b\x7d".toList)]))).1 =
      (NimbleBrain.streamMessageLines jpEmpty []
        ([] ++ ("event: ".toList ++ "content".toList) :: [[]])).1 ++
        [⟨"content".toList, DataVal.parsed ()⟩]) ∧
    ((NimbleBrain.streamMessageLines jpEmpty []
        ([] ++ ("data: ".toList ++ "\x7b\x7d".toList) :: [])).1 =
      (NimbleBrain.streamMessageLines jpEmpty [] []).1) :=
  ⟨(claim_C9 jpEmpty).1 [] "content".toList [[]] "\x7b\x7d".toList ()
      (by decide) (by decide) (by decide),
    (claim_C9 jpEmpty).2 [] "\x7b\x7d".toList [] (by decide)⟩

/-- C10: in `MessagesAPI.stream`, a frame consisting solely of
`event: done` with no `data:` line neither yields an event nor terminates
decoding: it is skipped (the early return is guarded by the presence of
data lines) and decoding continues with the later frames. -/
theorem claim_C10 {α : Type} (jp : List Char → Option α) (rest : List Char) :
    MessagesAPI.streamDecode jp ("event: done".toList ++ '\n' :: '\n' :: rest) =
      MessagesAPI.streamDecode jp rest ∧
    emitFrames jp ["event: done".toList] = ([], false) := by
  constructor
  · exact MessagesAPI.streamDecode_skip_frame jp (by decide) (by decide) rest
  · rw [emitFrames_cons, frameEvent_no_data jp (by decide)]
    rfl

end SSE
